/-
  Verification of the sparse boundary-matrix column store
  (`aleph::representations::Vector`, src/Vector.hh) and of the standard
  left-to-right persistence column-reduction algorithm that consumes it.

  The store is embedded shallowly: `std::vector<std::vector<Index>>`
  becomes `List (List Nat)`, `std::vector::at` becomes `List.getElem?` with
  `Option`-valued operations (`none` models the `std::out_of_range`
  exception, which in the C++ code is thrown before any mutation takes
  place, so a `none` result corresponds to an unchanged store),
  `std::vector::resize` becomes `resize` (keep the prefix, pad with a
  default value), `std::sort` becomes `List.insertionSort (· ≤ ·)` (on
  `Nat` values any correct sort produces the same list), and
  `std::set_symmetric_difference` becomes the merge-style `symdiff`.
-/
import Mathlib

namespace Aleph

/-- `std::vector::resize(n, dflt)`: keep the first `n` elements; if the
vector is shorter than `n`, append value-initialized elements. -/
def resize {α : Type} (l : List α) (n : Nat) (dflt : α) : List α :=
  l.take n ++ List.replicate (n - l.length) dflt

/-- `std::set_symmetric_difference` on two ranges, as the standard merge:
while both ranges are non-empty, copy the smaller front element, or skip
both fronts when they are equivalent; finally copy the remaining tail. -/
def symdiff : List Nat → List Nat → List Nat
  | [], t => t
  | a :: s, [] => a :: s
  | a :: s, b :: t =>
    if a < b then a :: symdiff s (b :: t)
    else if b < a then b :: symdiff (a :: s) t
    else symdiff s t
termination_by s t => s.length + t.length

/-- The sparse column store `aleph::representations::Vector<unsigned>`:
a list of columns (each a list of row indices), a per-column dimension
tag, and the dualization flag. -/
structure Vector where
  _data : List (List Nat)
  _dimensions : List Nat
  _isDualized : Bool

/-- Default construction: both member vectors empty, `_isDualized = false`
(in-class initializer in src/Vector.hh). -/
def Vector.init : Vector :=
  { _data := [], _dimensions := [], _isDualized := false }

/-- `Vector::setNumColumns`: `_data.resize(n); _dimensions.resize(n)`. -/
def Vector.setNumColumns (v : Vector) (n : Nat) : Vector :=
  { v with
    _data := resize v._data n []
    _dimensions := resize v._dimensions n 0 }

/-- `Vector::getNumColumns`: `_data.size()`. -/
def Vector.getNumColumns (v : Vector) : Nat :=
  v._data.length

/-- `Vector::getMaximumIndex`: `(0, false)` on an empty column, otherwise
`(column.back(), true)`; `none` models the out-of-range exception of
`_data.at(column)`. -/
def Vector.getMaximumIndex (v : Vector) (column : Nat) : Option (Nat × Bool) :=
  match v._data[column]? with
  | none => none
  | some col =>
    match col.getLast? with
    | none => some (0, false)
    | some p => some (p, true)

/-- `Vector::addColumns`: replace the target column by
`std::set_symmetric_difference(source, target)`; both `at` calls happen
before any mutation, so an out-of-range index (`none`) leaves the store
unchanged. -/
def Vector.addColumns (v : Vector) (source target : Nat) : Option Vector :=
  match v._data[source]?, v._data[target]? with
  | some s, some t =>
      some { v with _data := v._data.set target (symdiff s t) }
  | _, _ => none

/-- `Vector::setColumn`: assign the input range to the column, `std::sort`
it, and store the derived dimension
(`begin == end ? 0 : distance(begin, end) - 1`). In every reachable store
`_data` and `_dimensions` have equal length, so the two `at` checks
coincide and a `none` result leaves the store unchanged. -/
def Vector.setColumn (v : Vector) (column : Nat) (l : List Nat) :
    Option Vector :=
  match v._data[column]?, v._dimensions[column]? with
  | some _, some _ =>
      some { v with
        _data := v._data.set column (List.insertionSort (· ≤ ·) l)
        _dimensions := v._dimensions.set column
          (if l.isEmpty then 0 else l.length - 1) }
  | _, _ => none

/-- `Vector::getColumn`: return a copy of the column. -/
def Vector.getColumn (v : Vector) (column : Nat) : Option (List Nat) :=
  v._data[column]?

/-- `Vector::clearColumn`: `_data.at(column).clear()`. -/
def Vector.clearColumn (v : Vector) (column : Nat) : Option Vector :=
  match v._data[column]? with
  | some _ => some { v with _data := v._data.set column [] }
  | none => none

/-- `Vector::getDimension(column)`: `_dimensions.at(column)`. -/
def Vector.getDimension (v : Vector) (column : Nat) : Option Nat :=
  v._dimensions[column]?

/-- `Vector::setDualized`. -/
def Vector.setDualized (v : Vector) (value : Bool) : Vector :=
  { v with _isDualized := value }

/-- `Vector::isDualized`. -/
def Vector.isDualized (v : Vector) : Bool :=
  v._isDualized

/-- Total column accessor used by the reduction model: column `k`, or the
empty column when `k` is out of range. -/
def colAt (cols : List (List Nat)) (k : Nat) : List Nat :=
  (cols[k]?).getD []

/-- Modelled from the spec: the repository sources under src/ contain only
the Sparse Column Store; the Column Reduction Engine of spec section 4.2 is
absent, so it is modelled here from the spec text. The pivot of a column is
its maximal row index, read from the back of the ascending column, and it
is absent for an empty column ("no pivot"). -/
def pivot? (c : List Nat) : Option Nat :=
  c.getLast?

/-- Modelled from the spec: step 4.2-b searches among the strictly earlier
columns `0 .. j-1` for the non-empty columns whose current pivot equals
`p`; this is the list of all such candidate columns. -/
def candidates (cols : List (List Nat)) (j p : Nat) : List Nat :=
  (List.range j).filter (fun k => decide (pivot? (colAt cols k) = some p))

/-- Modelled from the spec: an arbitrary tie-breaking rule for step 4.2-b.
A valid rule returns an element of the candidate list whenever that list is
non-empty; the spec leaves the lookup mechanism open (section 9), so the
algorithm is parameterised by any such rule. -/
def ValidChoice (pick : List Nat → Option Nat) : Prop :=
  (∀ l x, pick l = some x → x ∈ l) ∧ (∀ l, l ≠ [] → (pick l).isSome)

/-- Modelled from the spec: the inner while-loop of step 4.2 (steps a-d).
While column `j` is non-empty, query its pivot `p`; if some earlier column
`k` holds the same pivot, eliminate it via `addColumns(k, j)` (mod-2
symmetric difference) and repeat; otherwise column `j` is reduced. The
fuel argument bounds the number of eliminations; every entry of the matrix
being below the fuel makes it sufficient, since each elimination strictly
decreases the pivot. -/
def reduceColumn (pick : List Nat → Option Nat) :
    Nat → List (List Nat) → Nat → List Nat → List Nat
  | 0, _, _, c => c
  | fuel + 1, cols, j, c =>
    match pivot? c with
    | none => c
    | some p =>
      match pick (candidates cols j p) with
      | none => c
      | some k => reduceColumn pick fuel cols j (symdiff (colAt cols k) c)

/-- Modelled from the spec: the left-to-right column sweep of step 4.2-1,
processing `steps` consecutive columns starting at column `j`, each column
being replaced by its reduced form before the sweep moves right. -/
def sweepAux (pick : List Nat → Option Nat) (fuel : Nat) :
    List (List Nat) → Nat → Nat → List (List Nat)
  | cols, _, 0 => cols
  | cols, j, steps + 1 =>
    sweepAux pick fuel
      (cols.set j (reduceColumn pick fuel cols j (colAt cols j))) (j + 1)
      steps

/-- Modelled from the spec: the full reduction — sweep every column from
left to right. -/
def reduce (pick : List Nat → Option Nat) (fuel : Nat)
    (cols : List (List Nat)) : List (List Nat) :=
  sweepAux pick fuel cols 0 cols.length

/-- Modelled from the spec: the Pairing Extractor walks the reduced matrix
and, for each column `j` with pivot `p`, emits the persistence pair
(birth = `p`, death = `j`); with the dualization flag set, birth and death
indices are swapped. -/
def extractPairs (dualized : Bool) (cols : List (List Nat)) :
    List (Nat × Nat) :=
  (List.range cols.length).filterMap (fun j =>
    match pivot? (colAt cols j) with
    | none => none
    | some p => some (if dualized then (j, p) else (p, j)))

/-- Invariant: every column of the matrix is strictly sorted ascending. -/
def SortedCols (cols : List (List Nat)) : Prop :=
  ∀ c ∈ cols, List.Sorted (· < ·) c

/-- Invariant: every entry of the matrix is below the bound `B`. -/
def BoundedCols (B : Nat) (cols : List (List Nat)) : Prop :=
  ∀ c ∈ cols, ∀ x ∈ c, x < B

/-- Invariant: among the first `j` columns, a pivot determines the column
holding it — the prefix is reduced. -/
def ReducedPrefix (cols : List (List Nat)) (j : Nat) : Prop :=
  ∀ k1 k2 p, k1 < j → k2 < j → pivot? (colAt cols k1) = some p →
    pivot? (colAt cols k2) = some p → k1 = k2

/-- Resizing produces a list of exactly the requested length. -/
theorem resize_length {α : Type} (l : List α) (n : Nat) (d : α) :
    (resize l n d).length = n := by
  simp [resize]
  omega

/-- Resizing keeps every element of the surviving prefix. -/
theorem resize_getElem?_of_lt {α : Type} {l : List α} {n c : Nat} (d : α)
    (hc : c < l.length) (hn : c < n) : (resize l n d)[c]? = l[c]? := by
  unfold resize
  rw [List.getElem?_append_left (by simp; omega), List.getElem?_take_of_lt hn]

/-- Resizing pads the tail with the default element. -/
theorem resize_getElem?_pad {α : Type} {l : List α} {n c : Nat} (d : α)
    (hc : l.length ≤ c) (hn : c < n) : (resize l n d)[c]? = some d := by
  have hlen : (l.take n).length = l.length := by simp; omega
  unfold resize
  rw [List.getElem?_append_right (by rw [hlen]; exact hc), hlen,
    List.getElem?_replicate, if_pos (by omega)]

theorem mem_symdiff_imp {s t : List Nat} {a : Nat} (h : a ∈ symdiff s t) : a ∈ s ∨ a ∈ t := by
  induction s, t using symdiff.induct with
  | case1 t => simp only [symdiff] at h; right; exact h
  | case2 x s => simp only [symdiff] at h; left; exact h
  | case3 x s y t hxy ih =>
    rw [symdiff, if_pos hxy] at h
    rcases List.mem_cons.mp h with rfl | h2
    · left; exact List.mem_cons_self _ _
    · rcases ih h2 with hh | hh
      · left; exact List.mem_cons_of_mem _ hh
      · right; exact hh
  | case4 x s y t hxy hyx ih =>
    rw [symdiff, if_neg hxy, if_pos hyx] at h
    rcases List.mem_cons.mp h with rfl | h2
    · right; exact List.mem_cons_self _ _
    · rcases ih h2 with hh | hh
      · left; exact hh
      · right; exact List.mem_cons_of_mem _ hh
  | case5 x s y t hxy hyx ih =>
    rw [symdiff, if_neg hxy, if_neg hyx] at h
    rcases ih h with hh | hh
    · left; exact List.mem_cons_of_mem _ hh
    · right; exact List.mem_cons_of_mem _ hh

theorem sorted_symdiff {s t : List Nat} (hs : List.Sorted (· < ·) s)
    (ht : List.Sorted (· < ·) t) : List.Sorted (· < ·) (symdiff s t) := by
  induction s, t using symdiff.induct with
  | case1 t => simpa [symdiff] using ht
  | case2 x s => simpa [symdiff] using hs
  | case3 x s y t hxy ih =>
    rw [symdiff, if_pos hxy]
    rw [List.sorted_cons] at hs ⊢
    refine ⟨?_, ih hs.2 ht⟩
    intro b hb
    rcases mem_symdiff_imp hb with hh | hh
    · exact hs.1 b hh
    · rcases List.mem_cons.mp hh with rfl | hh2
      · exact hxy
      · rw [List.sorted_cons] at ht
        exact lt_trans hxy (ht.1 b hh2)
  | case4 x s y t hxy hyx ih =>
    rw [symdiff, if_neg hxy, if_pos hyx]
    rw [List.sorted_cons] at ht ⊢
    refine ⟨?_, ih hs ht.2⟩
    intro b hb
    rcases mem_symdiff_imp hb with hh | hh
    · rcases List.mem_cons.mp hh with rfl | hh2
      · exact hyx
      · rw [List.sorted_cons] at hs
        exact lt_trans hyx (hs.1 b hh2)
    · exact ht.1 b hh
  | case5 x s y t hxy hyx ih =>
    rw [symdiff, if_neg hxy, if_neg hyx]
    rw [List.sorted_cons] at hs ht
    exact ih hs.2 ht.2

theorem mem_symdiff {s t : List Nat} (hs : List.Sorted (· < ·) s)
    (ht : List.Sorted (· < ·) t) (a : Nat) :
    a ∈ symdiff s t ↔ ((a ∈ s ∧ a ∉ t) ∨ (a ∉ s ∧ a ∈ t)) := by
  induction s, t using symdiff.induct with
  | case1 t => simp [symdiff]
  | case2 x s => simp [symdiff]
  | case3 x s y t hxy ih =>
    rw [List.sorted_cons] at hs
    have hx_notin : x ∉ y :: t := by
      intro hmem
      rcases List.mem_cons.mp hmem with rfl | hh
      · exact lt_irrefl x hxy
      · rw [List.sorted_cons] at ht
        exact lt_irrefl x (lt_trans hxy (ht.1 x hh))
    rw [symdiff, if_pos hxy]
    simp only [List.mem_cons, ih hs.2 ht] at hx_notin ⊢
    by_cases hax : a = x
    · subst hax
      push_neg at hx_notin
      simp [hx_notin.1, hx_notin.2]
    · simp only [hax, false_or]
  | case4 x s y t hxy hyx ih =>
    rw [List.sorted_cons] at ht
    have hy_notin : y ∉ x :: s := by
      intro hmem
      rcases List.mem_cons.mp hmem with rfl | hh
      · exact lt_irrefl y hyx
      · rw [List.sorted_cons] at hs
        exact lt_irrefl y (lt_trans hyx (hs.1 y hh))
    rw [symdiff, if_neg hxy, if_pos hyx]
    simp only [List.mem_cons, ih hs ht.2] at hy_notin ⊢
    by_cases hay : a = y
    · subst hay
      push_neg at hy_notin
      simp [hy_notin.1, hy_notin.2]
    · simp only [hay, false_or]
  | case5 x s y t hxy hyx ih =>
    have hxy_eq : x = y := le_antisymm (le_of_not_lt hyx) (le_of_not_lt hxy)
    subst hxy_eq
    rw [List.sorted_cons] at hs ht
    have hx_s : x ∉ s := fun hc => lt_irrefl x (hs.1 x hc)
    have hx_t : x ∉ t := fun hc => lt_irrefl x (ht.1 x hc)
    rw [symdiff, if_neg hxy, if_neg hyx]
    simp only [List.mem_cons, ih hs.2 ht.2]
    by_cases hax : a = x
    · subst hax
      simp [hx_s, hx_t]
    · simp only [hax, false_or]

/-- A strictly sorted list has no duplicate elements. -/
theorem nodup_of_sorted_lt {l : List Nat} (h : List.Sorted (· < ·) l) :
    l.Nodup :=
  h.nodup

/-- Mod-2 column addition is self-inverse on strictly sorted columns. -/
theorem symdiff_cancel {s t : List Nat} (hs : List.Sorted (· < ·) s)
    (ht : List.Sorted (· < ·) t) : symdiff s (symdiff s t) = t := by
  have h1 : List.Sorted (· < ·) (symdiff s t) := sorted_symdiff hs ht
  have h2 : List.Sorted (· < ·) (symdiff s (symdiff s t)) := sorted_symdiff hs h1
  apply List.eq_of_perm_of_sorted _ h2 ht
  rw [List.perm_ext_iff_of_nodup h2.nodup ht.nodup]
  intro a
  rw [mem_symdiff hs h1, mem_symdiff hs ht]
  tauto

/-- A non-empty list has a last element. -/
theorem getLast?_isSome_of_ne_nil {l : List Nat} (h : l ≠ []) :
    ∃ p, l.getLast? = some p := by
  cases l with
  | nil => exact absurd rfl h
  | cons a t =>
      exact ⟨(a :: t).getLast (by simp), List.getLast?_eq_getLast_of_ne_nil (by simp)⟩

/-- The last element of a list is a member. -/
theorem getLast?_mem {l : List Nat} {p : Nat} (h : l.getLast? = some p) :
    p ∈ l := by
  obtain ⟨hne, rfl⟩ := List.mem_getLast?_eq_getLast (l := l) (x := p) h
  exact List.getLast_mem hne

/-- In a list sorted by `≤`, the last element bounds every member from above. -/
theorem le_getLast_of_sorted {l : List Nat} {p x : Nat}
    (h : List.Sorted (· ≤ ·) l) (hp : l.getLast? = some p) (hx : x ∈ l) :
    x ≤ p := by
  induction l with
  | nil => simp at hx
  | cons a t ih =>
    rw [List.sorted_cons] at h
    cases t with
    | nil =>
      simp at hp hx
      omega
    | cons b u =>
      rw [List.getLast?_cons_cons] at hp
      rcases List.mem_cons.mp hx with rfl | hx2
      · exact h.1 p (getLast?_mem hp)
      · exact ih h.2 hp hx2

/-- In a strictly sorted list, the last element strictly bounds every other
member. -/
theorem lt_getLast_of_sorted_lt {l : List Nat} {p x : Nat}
    (h : List.Sorted (· < ·) l) (hp : l.getLast? = some p) (hx : x ∈ l)
    (hne : x ≠ p) : x < p :=
  lt_of_le_of_ne (le_getLast_of_sorted (h.imp le_of_lt) hp hx) hne

/-- C1 counterexample: `setColumn` sorts but does not de-duplicate. Feeding
the duplicate-containing sequence `[1, 1]` into column 0 of a one-column
store leaves the stored column equal to `[1, 1]`, which is not
duplicate-free, so the claim that the stored column "contains no duplicate
row indices" for every input sequence is false on the code. -/
theorem setColumn_nodup_counterexample :
    (((Vector.init.setNumColumns 1).setColumn 0 [1, 1]).bind
        (fun w => w.getColumn 0)) = some [1, 1] ∧
    ¬ ([1, 1] : List Nat).Nodup := by
  decide

/-- C1 (amended): for every in-range column index and every input sequence,
after `setColumn` the stored column is sorted in ascending order and is a
permutation of the input; it is duplicate-free whenever the input sequence
itself contains no duplicate indices (the store sorts, but performs no
de-duplication). -/
theorem setColumn_sorted_amended (v : Vector) (c : Nat) (l : List Nat)
    (hc : c < v.getNumColumns)
    (hlen : v._dimensions.length = v._data.length) :
    ∃ w col, v.setColumn c l = some w ∧ w.getColumn c = some col ∧
      List.Sorted (· ≤ ·) col ∧ List.Perm col l ∧
      (l.Nodup → col.Nodup) := by
  unfold Vector.getNumColumns at hc
  unfold Vector.setColumn Vector.getColumn
  rw [List.getElem?_eq_getElem hc,
    List.getElem?_eq_getElem (show c < v._dimensions.length by omega)]
  refine ⟨_, List.insertionSort (· ≤ ·) l, rfl, ?_,
    List.sorted_insertionSort _ l, List.perm_insertionSort _ l,
    fun hnd => ((List.perm_insertionSort _ l).nodup_iff).mpr hnd⟩
  exact List.getElem?_set_eq_of_lt _ hc

/-- C1 witness: the amended theorem applied to a concrete store, column and
unsorted duplicate-free input. -/
theorem setColumn_sorted_amended_witness :
    0 < (Vector.mk [[0], [1]] [0, 0] false).getNumColumns ∧
    (Vector.mk [[0], [1]] [0, 0] false)._dimensions.length =
      (Vector.mk [[0], [1]] [0, 0] false)._data.length ∧
    (∃ w col,
      (Vector.mk [[0], [1]] [0, 0] false).setColumn 0 [7, 3, 5] = some w ∧
      w.getColumn 0 = some col ∧ List.Sorted (· ≤ ·) col ∧
      List.Perm col [7, 3, 5] ∧ (([7, 3, 5] : List Nat).Nodup → col.Nodup)) :=
  ⟨by decide, by decide,
    setColumn_sorted_amended (Vector.mk [[0], [1]] [0, 0] false) 0 [7, 3, 5]
      (by decide) (by decide)⟩

/-- C3 counterexample: `setNumColumns` is implemented with
`std::vector::resize`, which keeps the existing prefix. Repeating
`setNumColumns(1)` on a store whose single column was populated with
`[5, 7]` leaves that column non-empty and its dimension tag at 1, so the
claim that after any `setNumColumns(n)` every column below `n` is empty
with dimension tag zero is false on the code. -/
theorem setNumColumns_destructive_counterexample :
    (((Vector.init.setNumColumns 1).setColumn 0 [5, 7]).map
        (fun w => ((w.setNumColumns 1).getColumn 0,
                   (w.setNumColumns 1).getDimension 0)))
      = some (some [5, 7], some 1) ∧
    some [5, 7] ≠ some ([] : List Nat) ∧ (1 : Nat) ≠ 0 := by
  decide

/-- C3 (amended): after `setNumColumns(n)`, `getNumColumns()` returns `n`;
a column index below `n` that lies beyond the previous size reads as an
empty column with dimension tag zero, while a column index below both `n`
and the previous size retains its previous contents and dimension tag
(`std::vector::resize` keeps the surviving prefix and value-initializes
only the newly created elements). -/
theorem setNumColumns_amended (v : Vector) (n c : Nat) :
    (v.setNumColumns n).getNumColumns = n ∧
    (v.setNumColumns n).getColumn c =
      (if c < n then
        if c < v.getNumColumns then v.getColumn c else some [] else none) ∧
    (v.setNumColumns n).getDimension c =
      (if c < n then
        if c < v._dimensions.length then v.getDimension c else some 0
       else none) := by
  unfold Vector.setNumColumns Vector.getNumColumns Vector.getColumn
    Vector.getDimension
  refine ⟨resize_length _ _ _, ?_, ?_⟩
  · by_cases h1 : c < n
    · by_cases h2 : c < v._data.length
      · rw [if_pos h1, if_pos h2, resize_getElem?_of_lt _ h2 h1]
      · rw [if_pos h1, if_neg h2, resize_getElem?_pad _ (by omega) h1]
    · rw [if_neg h1, List.getElem?_eq_none (by rw [resize_length]; omega)]
  · by_cases h1 : c < n
    · by_cases h2 : c < v._dimensions.length
      · rw [if_pos h1, if_pos h2, resize_getElem?_of_lt _ h2 h1]
      · rw [if_pos h1, if_neg h2, resize_getElem?_pad _ (by omega) h1]
    · rw [if_neg h1, List.getElem?_eq_none (by rw [resize_length]; omega)]

/-- C4: on an in-range column, `getMaximumIndex` returns `(0, false)` when
the column is empty, and `(p, true)` with `p` the maximal stored row index
when the column is non-empty and sorted ascending (the implementation reads
`column.back()`, which is the maximum of a sorted column). -/
theorem getMaximumIndex_spec (v : Vector) (c : Nat) (col : List Nat)
    (hcol : v.getColumn c = some col)
    (hsorted : List.Sorted (· ≤ ·) col) :
    (col = [] → v.getMaximumIndex c = some (0, false)) ∧
    (col ≠ [] → ∃ p, v.getMaximumIndex c = some (p, true) ∧ p ∈ col ∧
      ∀ x ∈ col, x ≤ p) := by
  unfold Vector.getColumn at hcol
  unfold Vector.getMaximumIndex
  rw [hcol]
  constructor
  · rintro rfl
    rfl
  · intro hne
    obtain ⟨p, hp⟩ := getLast?_isSome_of_ne_nil hne
    refine ⟨p, ?_, getLast?_mem hp,
      fun x hx => le_getLast_of_sorted hsorted hp hx⟩
    have hred : (match col.getLast? with
        | none => some (0, false)
        | some q => some (q, true)) = (some (p, true) : Option (Nat × Bool)) := by
      rw [hp]
    exact hred

/-- C4 witness: the theorem applied to a concrete store with a sorted
non-empty column, and to one with an empty column. -/
theorem getMaximumIndex_spec_witness :
    (Vector.mk [[1, 3, 7], []] [2, 0] false).getColumn 0 = some [1, 3, 7] ∧
    List.Sorted (· ≤ ·) [1, 3, 7] ∧
    (([1, 3, 7] : List Nat) = [] →
      (Vector.mk [[1, 3, 7], []] [2, 0] false).getMaximumIndex 0 =
        some (0, false)) ∧
    (([1, 3, 7] : List Nat) ≠ [] →
      ∃ p, (Vector.mk [[1, 3, 7], []] [2, 0] false).getMaximumIndex 0 =
        some (p, true) ∧ p ∈ [1, 3, 7] ∧ ∀ x ∈ [1, 3, 7], x ≤ p) :=
  ⟨by decide, by decide,
    (getMaximumIndex_spec (Vector.mk [[1, 3, 7], []] [2, 0] false) 0 [1, 3, 7]
      (by decide) (by decide)).1,
    (getMaximumIndex_spec (Vector.mk [[1, 3, 7], []] [2, 0] false) 0 [1, 3, 7]
      (by decide) (by decide)).2⟩

/-- C5: `setColumn` stores dimension tag 0 for an empty input sequence and
`k - 1` for an input sequence of `k ≥ 1` boundary indices, and
`getDimension` subsequently returns that value. -/
theorem setColumn_dimension (v : Vector) (c : Nat) (l : List Nat)
    (hc : c < v.getNumColumns)
    (hlen : v._dimensions.length = v._data.length) :
    ∃ w, v.setColumn c l = some w ∧
      (l = [] → w.getDimension c = some 0) ∧
      (l ≠ [] → w.getDimension c = some (l.length - 1)) := by
  unfold Vector.getNumColumns at hc
  unfold Vector.setColumn Vector.getDimension
  rw [List.getElem?_eq_getElem hc,
    List.getElem?_eq_getElem (show c < v._dimensions.length by omega)]
  refine ⟨_, rfl, ?_, ?_⟩
  · rintro rfl
    simp only [List.isEmpty_nil, if_true]
    exact List.getElem?_set_eq_of_lt _ (by omega)
  · intro hne
    rw [if_neg (fun hcond => hne (List.isEmpty_iff.mp hcond))]
    exact List.getElem?_set_eq_of_lt _ (by omega)

/-- C5 witness: the theorem applied to a concrete store with a three-element
boundary list, and with an empty boundary list. -/
theorem setColumn_dimension_witness :
    0 < (Vector.mk [[0]] [0] false).getNumColumns ∧
    (Vector.mk [[0]] [0] false)._dimensions.length =
      (Vector.mk [[0]] [0] false)._data.length ∧
    (∃ w, (Vector.mk [[0]] [0] false).setColumn 0 [4, 2, 9] = some w ∧
      (([4, 2, 9] : List Nat) = [] → w.getDimension 0 = some 0) ∧
      (([4, 2, 9] : List Nat) ≠ [] →
        w.getDimension 0 = some (([4, 2, 9] : List Nat).length - 1))) :=
  ⟨by decide, by decide,
    setColumn_dimension (Vector.mk [[0]] [0] false) 0 [4, 2, 9]
      (by decide) (by decide)⟩

/-- C7: every per-column operation invoked with a column index at or beyond
the current column count signals the out-of-range condition, modelled here
by the `none` result (the C++ `std::vector::at` throws before any member is
mutated, so the store is unchanged whenever `none` is returned). -/
theorem out_of_range_signalled (v : Vector) (c j : Nat) (l : List Nat)
    (hc : v.getNumColumns ≤ c) :
    v.getMaximumIndex c = none ∧
    v.addColumns c j = none ∧
    v.addColumns j c = none ∧
    v.setColumn c l = none ∧
    v.getColumn c = none ∧
    v.clearColumn c = none ∧
    (v._dimensions.length = v._data.length → v.getDimension c = none) := by
  unfold Vector.getNumColumns at hc
  have hn : v._data[c]? = none := List.getElem?_eq_none hc
  refine ⟨?_, ?_, ?_, ?_, ?_, ?_, ?_⟩
  · unfold Vector.getMaximumIndex
    rw [hn]
  · unfold Vector.addColumns
    rw [hn]
  · unfold Vector.addColumns
    rw [hn]
    cases v._data[j]? <;> rfl
  · unfold Vector.setColumn
    rw [hn]
  · exact hn
  · unfold Vector.clearColumn
    rw [hn]
  · intro hlen
    exact List.getElem?_eq_none (by omega)

/-- C7 witness: the theorem applied to a concrete two-column store and the
out-of-range column index 2. -/
theorem out_of_range_signalled_witness :
    (Vector.mk [[0], [1]] [0, 0] false).getNumColumns ≤ 2 ∧
    (Vector.mk [[0], [1]] [0, 0] false).getMaximumIndex 2 = none ∧
    (Vector.mk [[0], [1]] [0, 0] false).addColumns 2 0 = none ∧
    (Vector.mk [[0], [1]] [0, 0] false).addColumns 0 2 = none ∧
    (Vector.mk [[0], [1]] [0, 0] false).setColumn 2 [1] = none ∧
    (Vector.mk [[0], [1]] [0, 0] false).getColumn 2 = none ∧
    (Vector.mk [[0], [1]] [0, 0] false).clearColumn 2 = none ∧
    ((Vector.mk [[0], [1]] [0, 0] false)._dimensions.length =
        (Vector.mk [[0], [1]] [0, 0] false)._data.length →
      (Vector.mk [[0], [1]] [0, 0] false).getDimension 2 = none) :=
  ⟨by decide,
    (out_of_range_signalled (Vector.mk [[0], [1]] [0, 0] false) 2 0 [1]
      (by decide)).1,
    (out_of_range_signalled (Vector.mk [[0], [1]] [0, 0] false) 2 0 [1]
      (by decide)).2.1,
    (out_of_range_signalled (Vector.mk [[0], [1]] [0, 0] false) 2 0 [1]
      (by decide)).2.2.1,
    (out_of_range_signalled (Vector.mk [[0], [1]] [0, 0] false) 2 0 [1]
      (by decide)).2.2.2.1,
    (out_of_range_signalled (Vector.mk [[0], [1]] [0, 0] false) 2 0 [1]
      (by decide)).2.2.2.2.1,
    (out_of_range_signalled (Vector.mk [[0], [1]] [0, 0] false) 2 0 [1]
      (by decide)).2.2.2.2.2.1,
    (out_of_range_signalled (Vector.mk [[0], [1]] [0, 0] false) 2 0 [1]
      (by decide)).2.2.2.2.2.2⟩

/-- C8: a default-constructed matrix has the dualization flag unset;
`setDualized(b)` makes `isDualized()` return `b` and changes no stored
column and no dimension tag. -/
theorem setDualized_only_flag (v : Vector) (b : Bool) :
    Vector.init.isDualized = false ∧
    (v.setDualized b).isDualized = b ∧
    (∀ c, (v.setDualized b).getColumn c = v.getColumn c) ∧
    (∀ c, (v.setDualized b).getDimension c = v.getDimension c) ∧
    (v.setDualized b).getNumColumns = v.getNumColumns :=
  ⟨rfl, rfl, fun _ => rfl, fun _ => rfl, rfl⟩

/-- C10: `clearColumn` empties the addressed column, leaves every dimension
tag (including that column's own) unchanged, and leaves all other columns
and the dualization flag unchanged. -/
theorem clearColumn_frame (v : Vector) (c : Nat)
    (hc : c < v.getNumColumns) :
    ∃ w, v.clearColumn c = some w ∧
      w.getColumn c = some [] ∧
      (∀ j, w.getDimension j = v.getDimension j) ∧
      (∀ j, j ≠ c → w.getColumn j = v.getColumn j) ∧
      w.getNumColumns = v.getNumColumns ∧
      w.isDualized = v.isDualized := by
  unfold Vector.getNumColumns at hc
  unfold Vector.clearColumn Vector.getColumn Vector.getDimension
    Vector.getNumColumns Vector.isDualized
  rw [List.getElem?_eq_getElem hc]
  refine ⟨_, rfl, List.getElem?_set_eq_of_lt _ hc, fun j => rfl,
    fun j hj => List.getElem?_set_ne (Ne.symm hj), by simp, rfl⟩

/-- C10 witness: the theorem applied to a concrete two-column store. -/
theorem clearColumn_frame_witness :
    0 < (Vector.mk [[1, 2], [3]] [1, 0] true).getNumColumns ∧
    (∃ w, (Vector.mk [[1, 2], [3]] [1, 0] true).clearColumn 0 = some w ∧
      w.getColumn 0 = some [] ∧
      (∀ j, w.getDimension j =
        (Vector.mk [[1, 2], [3]] [1, 0] true).getDimension j) ∧
      (∀ j, j ≠ 0 → w.getColumn j =
        (Vector.mk [[1, 2], [3]] [1, 0] true).getColumn j) ∧
      w.getNumColumns = (Vector.mk [[1, 2], [3]] [1, 0] true).getNumColumns ∧
      w.isDualized = (Vector.mk [[1, 2], [3]] [1, 0] true).isDualized) :=
  ⟨by decide,
    clearColumn_frame (Vector.mk [[1, 2], [3]] [1, 0] true) 0 (by decide)⟩

/-- C2: on two distinct in-range columns holding sorted duplicate-free
index sets, `addColumns(source, target)` replaces the target column with
exactly the set of indices present in exactly one of the two columns, the
result is sorted ascending with no duplicates, and the source column, all
other columns, all dimension tags and the dualization flag are unchanged. -/
theorem addColumns_symmetric_difference (v : Vector) (source target : Nat)
    (s t : List Nat) (hne : source ≠ target)
    (hsc : v.getColumn source = some s) (htc : v.getColumn target = some t)
    (hs : List.Sorted (· < ·) s) (ht : List.Sorted (· < ·) t) :
    ∃ w, v.addColumns source target = some w ∧
      ∃ r, w.getColumn target = some r ∧
        (∀ a, a ∈ r ↔ ((a ∈ s ∧ a ∉ t) ∨ (a ∉ s ∧ a ∈ t))) ∧
        List.Sorted (· < ·) r ∧ r.Nodup ∧
        w.getColumn source = some s ∧
        (∀ j, j ≠ target → w.getColumn j = v.getColumn j) ∧
        (∀ j, w.getDimension j = v.getDimension j) ∧
        w.isDualized = v.isDualized ∧
        w.getNumColumns = v.getNumColumns := by
  unfold Vector.getColumn at hsc htc
  have htlen : target < v._data.length := by
    by_contra hcon
    rw [List.getElem?_eq_none (by omega)] at htc
    exact Option.noConfusion htc
  unfold Vector.addColumns Vector.getColumn Vector.getDimension
    Vector.isDualized Vector.getNumColumns
  rw [hsc, htc]
  refine ⟨_, rfl, symdiff s t, List.getElem?_set_eq_of_lt _ htlen,
    mem_symdiff hs ht, sorted_symdiff hs ht, (sorted_symdiff hs ht).nodup,
    ?_, fun j hj => List.getElem?_set_ne (Ne.symm hj), fun j => rfl, rfl,
    by simp⟩
  rw [List.getElem?_set_ne (Ne.symm hne)]
  exact hsc

/-- C2 witness: the theorem applied to a concrete store whose columns 0 and
1 hold the sorted duplicate-free index sets `[1, 2, 4]` and `[2, 3]`. -/
theorem addColumns_symmetric_difference_witness :
    (0 : Nat) ≠ 1 ∧
    (Vector.mk [[1, 2, 4], [2, 3]] [2, 1] false).getColumn 0 =
      some [1, 2, 4] ∧
    (Vector.mk [[1, 2, 4], [2, 3]] [2, 1] false).getColumn 1 = some [2, 3] ∧
    List.Sorted (· < ·) [1, 2, 4] ∧ List.Sorted (· < ·) [2, 3] ∧
    (∃ w, (Vector.mk [[1, 2, 4], [2, 3]] [2, 1] false).addColumns 0 1 =
        some w ∧
      ∃ r, w.getColumn 1 = some r ∧
        (∀ a, a ∈ r ↔ ((a ∈ [1, 2, 4] ∧ a ∉ [2, 3]) ∨
          (a ∉ [1, 2, 4] ∧ a ∈ [2, 3]))) ∧
        List.Sorted (· < ·) r ∧ r.Nodup ∧
        w.getColumn 0 = some [1, 2, 4] ∧
        (∀ j, j ≠ 1 → w.getColumn j =
          (Vector.mk [[1, 2, 4], [2, 3]] [2, 1] false).getColumn j) ∧
        (∀ j, w.getDimension j =
          (Vector.mk [[1, 2, 4], [2, 3]] [2, 1] false).getDimension j) ∧
        w.isDualized =
          (Vector.mk [[1, 2, 4], [2, 3]] [2, 1] false).isDualized ∧
        w.getNumColumns =
          (Vector.mk [[1, 2, 4], [2, 3]] [2, 1] false).getNumColumns) :=
  ⟨by decide, by decide, by decide, by decide, by decide,
    addColumns_symmetric_difference
      (Vector.mk [[1, 2, 4], [2, 3]] [2, 1] false) 0 1 [1, 2, 4] [2, 3]
      (by decide) (by decide) (by decide) (by decide) (by decide)⟩

/-- C9: mod-2 column addition is self-inverse — applying
`addColumns(source, target)` twice on distinct in-range columns holding
sorted duplicate-free index sets restores the target column to exactly its
original contents, and leaves every other column unchanged. -/
theorem addColumns_involutive (v : Vector) (source target : Nat)
    (s t : List Nat) (hne : source ≠ target)
    (hsc : v.getColumn source = some s) (htc : v.getColumn target = some t)
    (hs : List.Sorted (· < ·) s) (ht : List.Sorted (· < ·) t) :
    ∃ w u, v.addColumns source target = some w ∧
      w.addColumns source target = some u ∧
      u.getColumn target = some t ∧
      (∀ j, j ≠ target → u.getColumn j = v.getColumn j) := by
  unfold Vector.getColumn at hsc htc
  have htlen : target < v._data.length := by
    by_contra hcon
    rw [List.getElem?_eq_none (by omega)] at htc
    exact Option.noConfusion htc
  unfold Vector.addColumns Vector.getColumn
  rw [hsc, htc]
  refine ⟨⟨v._data.set target (symdiff s t), v._dimensions, v._isDualized⟩,
    ⟨(v._data.set target (symdiff s t)).set target
        (symdiff s (symdiff s t)), v._dimensions, v._isDualized⟩,
    rfl, ?_, ?_, ?_⟩
  · show (match (v._data.set target (symdiff s t))[source]?,
        (v._data.set target (symdiff s t))[target]? with
      | some a, some b =>
        some (Vector.mk ((v._data.set target (symdiff s t)).set target
          (symdiff a b)) v._dimensions v._isDualized)
      | _, _ => none) = _
    rw [List.getElem?_set_ne (Ne.symm hne), hsc,
      List.getElem?_set_eq_of_lt _ htlen]
  · show ((v._data.set target (symdiff s t)).set target
        (symdiff s (symdiff s t)))[target]? = some t
    rw [List.getElem?_set_eq_of_lt _ (by simpa using htlen),
      symdiff_cancel hs ht]
  · intro j hj
    show ((v._data.set target (symdiff s t)).set target
        (symdiff s (symdiff s t)))[j]? = v._data[j]?
    rw [List.getElem?_set_ne (Ne.symm hj), List.getElem?_set_ne (Ne.symm hj)]

/-- C9 witness: the theorem applied to a concrete store whose columns 0 and
1 hold the sorted duplicate-free index sets `[1, 2, 4]` and `[2, 3]`. -/
theorem addColumns_involutive_witness :
    (0 : Nat) ≠ 1 ∧
    (Vector.mk [[1, 2, 4], [2, 3]] [2, 1] false).getColumn 0 =
      some [1, 2, 4] ∧
    (Vector.mk [[1, 2, 4], [2, 3]] [2, 1] false).getColumn 1 = some [2, 3] ∧
    List.Sorted (· < ·) [1, 2, 4] ∧ List.Sorted (· < ·) [2, 3] ∧
    (∃ w u, (Vector.mk [[1, 2, 4], [2, 3]] [2, 1] false).addColumns 0 1 =
        some w ∧
      w.addColumns 0 1 = some u ∧
      u.getColumn 1 = some [2, 3] ∧
      (∀ j, j ≠ 1 → u.getColumn j =
        (Vector.mk [[1, 2, 4], [2, 3]] [2, 1] false).getColumn j)) :=
  ⟨by decide, by decide, by decide, by decide, by decide,
    addColumns_involutive
      (Vector.mk [[1, 2, 4], [2, 3]] [2, 1] false) 0 1 [1, 2, 4] [2, 3]
      (by decide) (by decide) (by decide) (by decide) (by decide)⟩

/-- The inner reduction loop stops at once on a column with no pivot. -/
theorem reduceColumn_pivot_none {pick : List Nat → Option Nat} {fuel : Nat}
    {cols : List (List Nat)} {j : Nat} {c : List Nat}
    (hp : pivot? c = none) : reduceColumn pick (fuel + 1) cols j c = c := by
  unfold reduceColumn
  rw [hp]

/-- The inner reduction loop stops when no earlier column shares the
pivot. -/
theorem reduceColumn_no_cand {pick : List Nat → Option Nat} {fuel : Nat}
    {cols : List (List Nat)} {j : Nat} {c : List Nat} {p : Nat}
    (hp : pivot? c = some p) (hk : pick (candidates cols j p) = none) :
    reduceColumn pick (fuel + 1) cols j c = c := by
  unfold reduceColumn
  rw [hp]
  simp only [hk]

/-- The inner reduction loop performs one elimination step when the
tie-breaking rule returns a candidate column. -/
theorem reduceColumn_step {pick : List Nat → Option Nat} {fuel : Nat}
    {cols : List (List Nat)} {j : Nat} {c : List Nat} {p k : Nat}
    (hp : pivot? c = some p) (hk : pick (candidates cols j p) = some k) :
    reduceColumn pick (fuel + 1) cols j c =
      reduceColumn pick fuel cols j (symdiff (colAt cols k) c) := by
  conv_lhs => rw [reduceColumn]
  rw [hp]
  simp only [hk]

/-- Unfolding equation for one step of the sweep. -/
theorem sweepAux_succ (pick : List Nat → Option Nat) (fuel : Nat)
    (cols : List (List Nat)) (j steps : Nat) :
    sweepAux pick fuel cols j (steps + 1) =
      sweepAux pick fuel
        (cols.set j (reduceColumn pick fuel cols j (colAt cols j))) (j + 1)
        steps :=
  rfl

/-- Every column accessed through `colAt` in a sorted matrix is sorted. -/
theorem colAt_sorted {cols : List (List Nat)} (h : SortedCols cols)
    (k : Nat) : List.Sorted (· < ·) (colAt cols k) := by
  unfold colAt
  cases hk : cols[k]? with
  | none => exact List.sorted_nil
  | some c => exact h c (List.getElem?_mem hk)

/-- Every entry accessed through `colAt` in a bounded matrix is bounded. -/
theorem colAt_bounded {B : Nat} {cols : List (List Nat)}
    (h : BoundedCols B cols) (k : Nat) : ∀ x ∈ colAt cols k, x < B := by
  unfold colAt
  cases hk : cols[k]? with
  | none => intro x hx; exact absurd hx (List.not_mem_nil x)
  | some c => exact h c (List.getElem?_mem hk)

/-- Updating one column leaves every other column unchanged. -/
theorem colAt_set_ne {cols : List (List Nat)} {j k : Nat} {x : List Nat}
    (h : k ≠ j) : colAt (cols.set j x) k = colAt cols k := by
  unfold colAt
  rw [List.getElem?_set_ne (Ne.symm h)]

/-- Updating an in-range column stores the new column. -/
theorem colAt_set_self {cols : List (List Nat)} {j : Nat} {x : List Nat}
    (hj : j < cols.length) : colAt (cols.set j x) j = x := by
  unfold colAt
  rw [List.getElem?_set_eq_of_lt _ hj]
  rfl

/-- Reading beyond the matrix yields the empty column. -/
theorem colAt_of_length_le {cols : List (List Nat)} {j : Nat}
    (hj : cols.length ≤ j) : colAt cols j = [] := by
  unfold colAt
  rw [List.getElem?_eq_none hj]
  rfl

/-- Membership in the candidate list of step 4.2-b. -/
theorem mem_candidates {cols : List (List Nat)} {j p k : Nat} :
    k ∈ candidates cols j p ↔
      (k < j ∧ pivot? (colAt cols k) = some p) := by
  unfold candidates
  rw [List.mem_filter, List.mem_range]
  simp

/-- Two valid tie-breaking rules agree on any list with at most one
element. -/
theorem pick_subsingleton_eq {pick1 pick2 : List Nat → Option Nat}
    (h1 : ValidChoice pick1) (h2 : ValidChoice pick2) (l : List Nat)
    (hsub : ∀ a b, a ∈ l → b ∈ l → a = b) : pick1 l = pick2 l := by
  cases l with
  | nil =>
    have e1 : pick1 [] = none := by
      cases he : pick1 [] with
      | none => rfl
      | some x => exact absurd (h1.1 [] x he) (List.not_mem_nil x)
    have e2 : pick2 [] = none := by
      cases he : pick2 [] with
      | none => rfl
      | some x => exact absurd (h2.1 [] x he) (List.not_mem_nil x)
    rw [e1, e2]
  | cons a l2 =>
    have hs1 := h1.2 (a :: l2) (by simp)
    have hs2 := h2.2 (a :: l2) (by simp)
    obtain ⟨x1, hx1⟩ := Option.isSome_iff_exists.mp hs1
    obtain ⟨x2, hx2⟩ := Option.isSome_iff_exists.mp hs2
    rw [hx1, hx2, hsub x1 x2 (h1.1 _ _ hx1) (h2.1 _ _ hx2)]

/-- Once the prefix left of `j` is reduced, the result of the inner
reduction loop on column `j` does not depend on the tie-breaking rule: the
candidate list has at most one element at every iteration. -/
theorem reduceColumn_pick_eq {pick1 pick2 : List Nat → Option Nat}
    (h1 : ValidChoice pick1) (h2 : ValidChoice pick2) (fuel : Nat)
    (cols : List (List Nat)) (j : Nat) (c : List Nat)
    (hred : ReducedPrefix cols j) :
    reduceColumn pick1 fuel cols j c = reduceColumn pick2 fuel cols j c := by
  induction fuel generalizing c with
  | zero => rfl
  | succ fuel ih =>
    cases hp : pivot? c with
    | none => rw [reduceColumn_pivot_none hp, reduceColumn_pivot_none hp]
    | some p =>
      have hpick :
          pick1 (candidates cols j p) = pick2 (candidates cols j p) := by
        apply pick_subsingleton_eq h1 h2
        intro a b ha hb
        rw [mem_candidates] at ha hb
        exact hred a b p ha.1 hb.1 ha.2 hb.2
      cases hk : pick2 (candidates cols j p) with
      | none =>
        rw [reduceColumn_no_cand hp (hpick.trans hk),
          reduceColumn_no_cand hp hk]
      | some k =>
        rw [reduceColumn_step hp (hpick.trans hk), reduceColumn_step hp hk]
        exact ih (symdiff (colAt cols k) c)

/-- The inner reduction loop preserves strict sortedness of the column. -/
theorem reduceColumn_sorted {pick : List Nat → Option Nat} {fuel : Nat}
    {cols : List (List Nat)} {j : Nat} {c : List Nat}
    (hcols : SortedCols cols) (hc : List.Sorted (· < ·) c) :
    List.Sorted (· < ·) (reduceColumn pick fuel cols j c) := by
  induction fuel generalizing c with
  | zero => exact hc
  | succ fuel ih =>
    cases hp : pivot? c with
    | none => rw [reduceColumn_pivot_none hp]; exact hc
    | some p =>
      cases hk : pick (candidates cols j p) with
      | none => rw [reduceColumn_no_cand hp hk]; exact hc
      | some k =>
        rw [reduceColumn_step hp hk]
        exact ih (sorted_symdiff (colAt_sorted hcols k) hc)

/-- The inner reduction loop preserves the entry bound of the column. -/
theorem reduceColumn_bounded {pick : List Nat → Option Nat} {fuel B : Nat}
    {cols : List (List Nat)} {j : Nat} {c : List Nat}
    (hcols : BoundedCols B cols) (hc : ∀ x ∈ c, x < B) :
    ∀ x ∈ reduceColumn pick fuel cols j c, x < B := by
  induction fuel generalizing c with
  | zero => exact hc
  | succ fuel ih =>
    cases hp : pivot? c with
    | none => rw [reduceColumn_pivot_none hp]; exact hc
    | some p =>
      cases hk : pick (candidates cols j p) with
      | none => rw [reduceColumn_no_cand hp hk]; exact hc
      | some k =>
        rw [reduceColumn_step hp hk]
        apply ih
        intro x hx
        rcases mem_symdiff_imp hx with h | h
        · exact colAt_bounded hcols k x h
        · exact hc x h

/-- With sufficient fuel — every entry of the column below the fuel — the
inner reduction loop runs to completion: the pivot of the resulting column
is shared with no strictly earlier column. Each elimination step strictly
decreases the pivot, so the fuel never runs out first. -/
theorem reduceColumn_no_candidates {pick : List Nat → Option Nat}
    {fuel : Nat} {cols : List (List Nat)} {j : Nat} {c : List Nat} {p : Nat}
    (hv : ValidChoice pick) (hcols : SortedCols cols)
    (hc : List.Sorted (· < ·) c) (hb : ∀ x ∈ c, x < fuel)
    (hp : pivot? (reduceColumn pick fuel cols j c) = some p) :
    candidates cols j p = [] := by
  induction fuel generalizing c with
  | zero =>
    exact absurd (hb p (getLast?_mem hp)) (Nat.not_lt_zero p)
  | succ fuel ih =>
    cases hq : pivot? c with
    | none =>
      rw [reduceColumn_pivot_none hq, hq] at hp
      exact Option.noConfusion hp
    | some q =>
      cases hk : pick (candidates cols j q) with
      | none =>
        rw [reduceColumn_no_cand hq hk, hq] at hp
        have hqp : q = p := Option.some.inj hp
        subst hqp
        by_contra hne
        have hsome := hv.2 _ hne
        rw [hk] at hsome
        exact Bool.noConfusion hsome
      | some k =>
        rw [reduceColumn_step hq hk] at hp
        have hkc := hv.1 _ _ hk
        rw [mem_candidates] at hkc
        have hsk : List.Sorted (· < ·) (colAt cols k) := colAt_sorted hcols k
        apply ih (sorted_symdiff hsk hc) ?_ hp
        intro x hx
        have hq_in_c : q ∈ c := getLast?_mem hq
        have hx_le : x ≤ q := by
          rcases mem_symdiff_imp hx with h | h
          · exact le_getLast_of_sorted (List.Pairwise.imp le_of_lt hsk)
              hkc.2 h
          · exact le_getLast_of_sorted (List.Pairwise.imp le_of_lt hc) hq h
        have hx_ne : x ≠ q := by
          intro he
          subst he
          rw [mem_symdiff hsk hc] at hx
          rcases hx with ⟨h3, h4⟩ | ⟨h3, h4⟩
          · exact h4 hq_in_c
          · exact h3 (getLast?_mem hkc.2)
        have hqb := hb q hq_in_c
        omega

/-- Replacing column `j` by a fully reduced column extends the reduced
prefix from `j` to `j + 1`: at most one of the first `j + 1` columns can
hold any given pivot. -/
theorem reducedPrefix_set {cols : List (List Nat)} {j : Nat} {c2 : List Nat}
    (hred : ReducedPrefix cols j)
    (hc2 : ∀ p, pivot? c2 = some p → candidates cols j p = []) :
    ReducedPrefix (cols.set j c2) (j + 1) := by
  intro k1 k2 p hk1 hk2 hp1 hp2
  by_cases e1 : k1 = j
  · by_cases e2 : k2 = j
    · rw [e1, e2]
    · rw [e1] at hp1
      have hj : j < cols.length := by
        by_contra hh
        push_neg at hh
        rw [List.set_eq_of_length_le hh, colAt_of_length_le hh] at hp1
        exact Option.noConfusion hp1
      rw [colAt_set_self hj] at hp1
      rw [colAt_set_ne e2] at hp2
      have hmem : k2 ∈ candidates cols j p :=
        mem_candidates.mpr ⟨by omega, hp2⟩
      rw [hc2 p hp1] at hmem
      exact absurd hmem (List.not_mem_nil k2)
  · by_cases e2 : k2 = j
    · rw [e2] at hp2
      have hj : j < cols.length := by
        by_contra hh
        push_neg at hh
        rw [List.set_eq_of_length_le hh, colAt_of_length_le hh] at hp2
        exact Option.noConfusion hp2
      rw [colAt_set_self hj] at hp2
      rw [colAt_set_ne e1] at hp1
      have hmem : k1 ∈ candidates cols j p :=
        mem_candidates.mpr ⟨by omega, hp1⟩
      rw [hc2 p hp2] at hmem
      exact absurd hmem (List.not_mem_nil k1)
    · rw [colAt_set_ne e1] at hp1
      rw [colAt_set_ne e2] at hp2
      exact hred k1 k2 p (by omega) (by omega) hp1 hp2

/-- The whole left-to-right sweep is independent of the tie-breaking rule,
provided every column is sorted and the fuel bounds every entry. -/
theorem sweepAux_pick_eq {pick1 pick2 : List Nat → Option Nat} {fuel : Nat}
    (h1 : ValidChoice pick1) (h2 : ValidChoice pick2) :
    ∀ (steps j : Nat) (cols : List (List Nat)), SortedCols cols →
      BoundedCols fuel cols → ReducedPrefix cols j →
      sweepAux pick1 fuel cols j steps = sweepAux pick2 fuel cols j steps := by
  intro steps
  induction steps with
  | zero => intro j cols _ _ _; rfl
  | succ steps ih =>
    intro j cols hsort hbound hred
    rw [sweepAux_succ, sweepAux_succ,
      ← reduceColumn_pick_eq h1 h2 fuel cols j (colAt cols j) hred]
    apply ih (j + 1)
    · intro col hcol
      rcases List.mem_or_eq_of_mem_set hcol with h | h
      · exact hsort col h
      · rw [h]
        exact reduceColumn_sorted hsort (colAt_sorted hsort j)
    · intro col hcol
      rcases List.mem_or_eq_of_mem_set hcol with h | h
      · exact hbound col h
      · rw [h]
        exact reduceColumn_bounded hbound (colAt_bounded hbound j)
    · exact reducedPrefix_set hred (fun p hp =>
        reduceColumn_no_candidates h1 hsort (colAt_sorted hsort j)
          (colAt_bounded hbound j) hp)

/-- Taking the front of the candidate list is a valid tie-breaking rule. -/
theorem validChoice_head : ValidChoice List.head? := by
  constructor
  · intro l x h
    cases l with
    | nil => exact Option.noConfusion h
    | cons a t =>
      rw [List.head?_cons] at h
      cases h
      exact List.mem_cons_self _ _
  · intro l h
    cases l with
    | nil => exact absurd rfl h
    | cons a t => rfl

/-- Taking the back of the candidate list is a valid tie-breaking rule. -/
theorem validChoice_getLast : ValidChoice List.getLast? := by
  constructor
  · intro l x h
    exact getLast?_mem h
  · intro l h
    obtain ⟨p, hp⟩ := getLast?_isSome_of_ne_nil h
    rw [hp]
    rfl

/-- C6: for a fixed boundary matrix (all columns sorted ascending, every
entry below the fuel bound), any two runs of the left-to-right column
reduction — with any two valid tie-breaking rules for choosing the earlier
column sharing the current pivot — produce the identical reduced matrix and
the identical list of persistence pairs, under either setting of the
dualization flag. The reason is exactly the spec's: once the prefix is
reduced, at most one strictly earlier column can hold a given pivot, so
the tie-breaking rule never has a real choice. The Column Reduction Engine
is not part of the sources under src/ and is modelled from the spec. -/
theorem reduction_pairing_deterministic
    (pick1 pick2 : List Nat → Option Nat) (fuel : Nat)
    (cols : List (List Nat)) (h1 : ValidChoice pick1)
    (h2 : ValidChoice pick2) (hsort : SortedCols cols)
    (hbound : BoundedCols fuel cols) :
    reduce pick1 fuel cols = reduce pick2 fuel cols ∧
    ∀ dualized, extractPairs dualized (reduce pick1 fuel cols) =
      extractPairs dualized (reduce pick2 fuel cols) := by
  have h : reduce pick1 fuel cols = reduce pick2 fuel cols :=
    sweepAux_pick_eq h1 h2 cols.length 0 cols hsort hbound
      (fun k1 k2 p hk1 hk2 hp1 hp2 => absurd hk1 (Nat.not_lt_zero k1))
  exact ⟨h, fun d => by rw [h]⟩

/-- C6 witness: the theorem applied to the boundary matrix of a filtration
of two vertices and the edge joining them, with the front-of-list and the
back-of-list tie-breaking rules. -/
theorem reduction_pairing_deterministic_witness :
    ValidChoice List.head? ∧ ValidChoice List.getLast? ∧
    SortedCols [[], [], [0, 1]] ∧ BoundedCols 4 [[], [], [0, 1]] ∧
    (reduce List.head? 4 [[], [], [0, 1]] =
       reduce List.getLast? 4 [[], [], [0, 1]] ∧
     ∀ dualized, extractPairs dualized (reduce List.head? 4 [[], [], [0, 1]]) =
       extractPairs dualized (reduce List.getLast? 4 [[], [], [0, 1]])) :=
  ⟨validChoice_head, validChoice_getLast,
    by unfold SortedCols; decide, by unfold BoundedCols; decide,
    reduction_pairing_deterministic List.head? List.getLast? 4
      [[], [], [0, 1]] validChoice_head validChoice_getLast
      (by unfold SortedCols; decide) (by unfold BoundedCols; decide)⟩

end Aleph
